import Mathlib

/-!
Verification of the problem/fitness-evaluation core of LengthBiasCGP
(`problems.py`).

Modelling conventions:
* Python numeric values (ints, booleans and floats flowing through fitness
  arithmetic) are modelled as rationals `ℚ`; bit vectors produced by the
  domain generators are `List Nat` with entries in {0, 1}.
* A Python individual is consumed only through its capability contract:
  its `evaluate` method is a function `List ℚ → List ℚ`, its `genes`
  field a `List (Option Int)` (`none` is the no-op marker `None`), and its
  `active` field enters only through its cardinality.
* Runtime faults of the Python code (`KeyError`, `ZeroDivisionError`,
  `IndexError`) are modelled with `Except Err` / `Option`; where a total
  `ℚ`-valued function is used instead, every theorem carries hypotheses
  ruling the faulting inputs out.
-/

namespace LengthBiasCGP

/-- Runtime faults of the Python code. -/
inductive Err : Type where
  | keyErrorInputLength : Err
  | keyErrorEpsilon : Err
  | keyErrorGraphLength : Err
  | zeroDivisionError : Err
  | indexError : Err
  | valueError : Err
deriving DecidableEq, Repr

/-- The configuration dictionary: each recognized key is present or absent. -/
structure Config : Type where
  input_length : Option Nat
  epsilon : Option ℚ
  graph_length : Option Nat
deriving DecidableEq, Repr

/-! ## Domain generators -/

/-- `binary_range`: `itertools.product((0, 1), repeat=n)` — all binary
vectors of length `n` in the order produced by `itertools.product`
(first coordinate varies slowest). -/
def binary_range : Nat → List (List Nat)
  | 0 => [[]]
  | n + 1 =>
    ((binary_range n).map (fun v => 0 :: v)) ++ ((binary_range n).map (fun v => 1 :: v))

/-- Python `s.rjust(n, '0')` on a digit string: pad on the left with zeros
up to length `n` (never truncates). -/
def rjust (n : Nat) (l : List Nat) : List Nat :=
  List.replicate (n - l.length) 0 ++ l

/-- Python `s.ljust(n, '0')` on a digit string: pad on the right with zeros
up to length `n` (never truncates). -/
def ljust (n : Nat) (l : List Nat) : List Nat :=
  l ++ List.replicate (n - l.length) 0

/-- `single_bit_set`: `[map(int, '1'.rjust(i+1,'0').ljust(n,'0')) for i in range(n)]`
— the `n` one-hot vectors of length `n`. -/
def single_bit_set (n : Nat) : List (List Nat) :=
  (List.range n).map (fun i => ljust n (rjust (i + 1) [1]))

/-! ## Bounded_Problem -/

/-- A constructed `Bounded_Problem` instance: the precomputed training
table and the stored `epsilon`. -/
structure Bounded_Problem : Type where
  training : List (List ℚ × List ℚ)
  epsilon : ℚ
deriving DecidableEq

/-- The number of output positions counted as misses for one training case:
`sum(float(abs(answer - output) > epsilon) for answer, output in zip(answers, outputs))`.
Python `zip` truncates to the shorter sequence, as does `List.zip`. -/
def missCount (epsilon : ℚ) (answers outputs : List ℚ) : Nat :=
  ((answers.zip outputs).filter (fun p => decide (epsilon < |p.1 - p.2|))).length

/-- Per-case error: miss count divided by the case's output arity. -/
def caseError (epsilon : ℚ) (answers outputs : List ℚ) : ℚ :=
  (missCount epsilon answers outputs : ℚ) / (outputs.length : ℚ)

/-- `Bounded_Problem.get_fitness`: accumulate the per-case errors over the
training table and return `1 - score / len(training)`. -/
def Bounded_Problem.get_fitness (p : Bounded_Problem) (evaluate : List ℚ → List ℚ) : ℚ :=
  1 - ((p.training.map (fun c => caseError p.epsilon (evaluate c.1) c.2)).sum)
        / (p.training.length : ℚ)

/-- The training-table list comprehension
`[(i, self.problem_function(i)) for i in data_range]`: the (possibly
fallible) problem function runs on each input from left to right, the
first fault aborts the comprehension, and the first component counts the
`problem_function` calls made. -/
def buildTrainingTrace (pf : List Nat → Except Err (List Nat)) :
    List (List Nat) → Nat × Except Err (List (List Nat × List Nat))
  | [] => (0, Except.ok [])
  | i :: rest =>
    match pf i with
    | Except.error e => (1, Except.error e)
    | Except.ok out =>
      match buildTrainingTrace pf rest with
      | (calls, Except.error e) => (calls + 1, Except.error e)
      | (calls, Except.ok t) => (calls + 1, Except.ok ((i, out) :: t))

/-- `Bounded_Problem.__init__`, instrumented with the number of
`problem_function` evaluations performed before the constructor returns.
The source runs, in order:
`self.config = config`;
`self.training = [(i, self.problem_function(i)) for i in self.data_range(config)]`
(where `data_range` reads `config['input_length']` and a fault inside a
`problem_function` call propagates out of the comprehension);
`self.epsilon = config['epsilon']`. -/
def Bounded_Problem.initWithTrace (dataRange : Nat → List (List Nat))
    (pf : List Nat → Except Err (List Nat)) (config : Config) :
    Nat × Except Err (List (List Nat × List Nat) × ℚ) :=
  match config.input_length with
  | none => (0, Except.error Err.keyErrorInputLength)
  | some n =>
    match buildTrainingTrace pf (dataRange n) with
    | (calls, Except.error e) => (calls, Except.error e)
    | (calls, Except.ok training) =>
      match config.epsilon with
      | none => (calls, Except.error Err.keyErrorEpsilon)
      | some eps => (calls, Except.ok (training, eps))

/-! ## Binary_Multiply -/

/-- The value of a string of binary digits held as a list
(most-significant digit first), as computed by Python `int(s, 2)` on a
nonempty string.  `int2E` below models the fallible call itself; this
total version maps the empty string to 0 and every theorem using it
carries a hypothesis keeping the digit string nonempty. -/
def int2 (digits : List Nat) : Nat :=
  digits.foldl (fun acc d => 2 * acc + d) 0

/-- Python `int(s, 2)`: raises `ValueError` on the empty string and
parses a nonempty string of binary digits (most-significant first). -/
def int2E : List Nat → Except Err Nat
  | [] => Except.error Err.valueError
  | digits => Except.ok (int2 digits)

/-- Fuel-driven helper for `binDigits`: the fuel argument only makes the
recursion structural; it never runs out when it starts at `n` (see
`binDigitsAux_congr` and `binDigits_succ`). -/
def binDigitsAux : Nat → Nat → List Nat
  | _, 0 => []
  | 0, _ + 1 => []
  | fuel + 1, n + 1 => binDigitsAux fuel ((n + 1) / 2) ++ [(n + 1) % 2]

/-- Binary digits of `n`, most significant first, no leading zeros
(`binDigits 0 = []`). -/
def binDigits (n : Nat) : List Nat := binDigitsAux n n

/-- Python `bin(n)[2:]`: `bin(0)[2:] = "0"`. -/
def natToBin (n : Nat) : List Nat :=
  if n = 0 then [0] else binDigits n

/-- `Binary_Multiply.problem_function`: split the input digits at
`len(inputs) / 2`, parse the halves as binary integers, multiply, render in
binary and left-pad with zeros to `len(inputs)`. -/
def Binary_Multiply.problem_function (inputs : List Nat) : List Nat :=
  let middle := inputs.length / 2
  let a := inputs.take middle
  let b := inputs.drop middle
  rjust inputs.length (natToBin (int2 a * int2 b))

/-- `Binary_Multiply.problem_function` with the fallible `int(s, 2)`
calls modelled: the first half is parsed first, so an empty half (which
happens exactly when `len(inputs) < 2`) raises `ValueError` before any
multiplication. -/
def Binary_Multiply.problem_functionE (inputs : List Nat) : Except Err (List Nat) :=
  match int2E (inputs.take (inputs.length / 2)) with
  | Except.error e => Except.error e
  | Except.ok a =>
    match int2E (inputs.drop (inputs.length / 2)) with
    | Except.error e => Except.error e
    | Except.ok b => Except.ok (rjust inputs.length (natToBin (a * b)))

/-- The training table a `Binary_Multiply` instance precomputes for a
configured `input_length` of `n`. -/
def Binary_Multiply.training (n : Nat) : List (List Nat × List Nat) :=
  (binary_range n).map (fun i => (i, Binary_Multiply.problem_function i))

/-! ## Breadth -/

/-- `Breadth.problem_function`: `[sum(inputs) > 0]` (the boolean as a bit). -/
def Breadth.problem_function (inputs : List Nat) : List Nat :=
  [if 0 < inputs.sum then 1 else 0]

/-- The training table a `Breadth` instance precomputes for a configured
`input_length` of `n`. -/
def Breadth.training (n : Nat) : List (List Nat × List Nat) :=
  (single_bit_set n).map (fun i => (i, Breadth.problem_function i))

/-! ## Neutral, Depth, Flat, Active -/

/-- `Neutral.get_fitness`: always 0. -/
def Neutral.get_fitness (_individual : Unit) : ℚ := 0

/-- `Depth.__init__`: merely stores the configuration; no key is read. -/
def Depth.init (config : Config) : Except Err Config :=
  Except.ok config

/-- `Depth.get_fitness`:
`individual.evaluate([0])[0] / float(self.config['graph_length'])`.
Evaluation order of the source: evaluate, index (faults on an empty
result), read the config key (faults when absent), divide (faults on a
zero `graph_length`). -/
def Depth.get_fitness (config : Config) (evaluate : List ℚ → List ℚ) : Except Err ℚ :=
  match (evaluate [0]).head? with
  | none => Except.error Err.indexError
  | some v =>
    match config.graph_length with
    | none => Except.error Err.keyErrorGraphLength
    | some L =>
      if L = 0 then Except.error Err.zeroDivisionError else Except.ok (v / (L : ℚ))

/-- The test a gene passes to be counted in `correct`: `gene is not None`
and `gene < 0`. -/
def isNegGene : Option Int → Bool
  | some v => decide (v < 0)
  | none => false

/-- `Flat.get_fitness`: loop over `individual.genes` counting `correct`
(genes that are negative) and `total` (genes that are not `None`), then
`correct / float(total)` — which faults when `total = 0`. -/
def Flat.get_fitness (genes : List (Option Int)) : Option ℚ :=
  let total := (genes.filter (fun g => g.isSome)).length
  let correct := (genes.filter isNegGene).length
  if total = 0 then none else some ((correct : ℚ) / (total : ℚ))

/-- `Active.__init__`: merely stores the configuration; no key is read. -/
def Active.init (config : Config) : Except Err Config :=
  Except.ok config

/-- `Active.get_fitness`:
`len(individual.active) / float(self.config['graph_length'])`. -/
def Active.get_fitness (config : Config) (activeCount : Nat) : Except Err ℚ :=
  match config.graph_length with
  | none => Except.error Err.keyErrorGraphLength
  | some L =>
    if L = 0 then Except.error Err.zeroDivisionError
    else Except.ok ((activeCount : ℚ) / (L : ℚ))

/-! ## Lemmas on the domain generators -/

theorem binary_range_length (n : Nat) : (binary_range n).length = 2 ^ n := by
  induction n with
  | zero => rfl
  | succ n ih =>
    simp only [binary_range, List.length_append, List.length_map, ih, pow_succ]
    omega

theorem mem_binary_range (n : Nat) (v : List Nat) :
    v ∈ binary_range n ↔ v.length = n ∧ ∀ x ∈ v, x = 0 ∨ x = 1 := by
  induction n generalizing v with
  | zero =>
    simp only [binary_range, List.mem_singleton, List.length_eq_zero]
    constructor
    · rintro rfl
      simp
    · rintro ⟨rfl, -⟩
      rfl
  | succ n ih =>
    simp only [binary_range, List.mem_append, List.mem_map]
    constructor
    · rintro (⟨w, hw, rfl⟩ | ⟨w, hw, rfl⟩) <;>
        · obtain ⟨hlen, hbin⟩ := (ih w).mp hw
          refine ⟨by simp [hlen], ?_⟩
          intro x hx
          rcases List.mem_cons.mp hx with rfl | hx
          · simp
          · exact hbin x hx
    · rintro ⟨hlen, hbin⟩
      match v with
      | [] => simp at hlen
      | x :: w =>
        have hw : w ∈ binary_range n := by
          refine (ih w).mpr ⟨by simpa using hlen, ?_⟩
          intro y hy
          exact hbin y (List.mem_cons_of_mem x hy)
        rcases hbin x (List.mem_cons_self x w) with rfl | rfl
        · exact Or.inl ⟨w, hw, rfl⟩
        · exact Or.inr ⟨w, hw, rfl⟩

theorem binary_range_nodup (n : Nat) : (binary_range n).Nodup := by
  induction n with
  | zero => simp [binary_range]
  | succ n ih =>
    have hinj0 : Function.Injective (fun v : List Nat => 0 :: v) := by
      intro a b h
      simpa using h
    have hinj1 : Function.Injective (fun v : List Nat => 1 :: v) := by
      intro a b h
      simpa using h
    refine List.Nodup.append (ih.map hinj0) (ih.map hinj1) ?_
    intro v hv0 hv1
    simp only [List.mem_map] at hv0 hv1
    obtain ⟨w0, -, rfl⟩ := hv0
    obtain ⟨w1, -, h⟩ := hv1
    exact absurd (List.head_eq_of_cons_eq h) one_ne_zero

theorem single_bit_set_length (n : Nat) : (single_bit_set n).length = n := by
  simp [single_bit_set]

theorem single_bit_set_getD (n i : Nat) (hi : i < n) :
    (single_bit_set n).getD i [] =
      List.replicate i 0 ++ 1 :: List.replicate (n - i - 1) 0 := by
  have hget : (single_bit_set n).getD i [] = ljust n (rjust (i + 1) [1]) := by
    simp [single_bit_set, List.getD, List.getElem?_map, List.getElem?_range, hi]
  have hr : rjust (i + 1) [1] = List.replicate i 0 ++ [1] := by
    simp [rjust]
  have hsub : n - (i + 1) = n - i - 1 := by omega
  rw [hget, hr]
  simp [ljust, List.append_assoc, hsub]

theorem replicate_zero_getD (k j : Nat) : (List.replicate k (0 : Nat)).getD j 0 = 0 := by
  induction k generalizing j with
  | zero => simp
  | succ k ih =>
    match j with
    | 0 => rfl
    | j + 1 =>
      rw [List.replicate_succ, List.getD_cons_succ]
      exact ih j

theorem one_hot_getD (i k j : Nat) :
    (List.replicate i 0 ++ 1 :: List.replicate k 0).getD j 0 =
      if j = i then 1 else 0 := by
  induction i generalizing j with
  | zero =>
    simp only [List.replicate, List.nil_append]
    match j with
    | 0 => rfl
    | j + 1 =>
      rw [List.getD_cons_succ, if_neg (Nat.succ_ne_zero j)]
      exact replicate_zero_getD k j
  | succ i ih =>
    rw [List.replicate_succ, List.cons_append]
    match j with
    | 0 => rw [List.getD_cons_zero, if_neg (Ne.symm (Nat.succ_ne_zero i))]
    | j + 1 =>
      rw [List.getD_cons_succ, ih j]
      have h : j + 1 = i + 1 ↔ j = i := by omega
      by_cases hj : j = i
      · rw [if_pos hj, if_pos (h.mpr hj)]
      · rw [if_neg hj, if_neg (fun hc => hj (h.mp hc))]

/-- Claim C6: for every `n`, `binary_range n` yields exactly `2 ^ n` vectors,
all of length `n`, pairwise distinct, and every element of `{0,1}^n`
appears (hence exactly once); the order is a fixed function of `n`. -/
theorem claim_C6_binary_range (n : Nat) :
    (binary_range n).length = 2 ^ n ∧
    (binary_range n).Nodup ∧
    (∀ v ∈ binary_range n, v.length = n ∧ ∀ x ∈ v, x = 0 ∨ x = 1) ∧
    (∀ v : List Nat, v.length = n → (∀ x ∈ v, x = 0 ∨ x = 1) → v ∈ binary_range n) := by
  refine ⟨binary_range_length n, binary_range_nodup n, ?_, ?_⟩
  · intro v hv
    exact (mem_binary_range n v).mp hv
  · intro v hlen hbin
    exact (mem_binary_range n v).mpr ⟨hlen, hbin⟩

/-- Witness for C6 at `n = 2` and the concrete vector `[1, 0]`. -/
theorem claim_C6_binary_range_witness :
    (binary_range 2).length = 2 ^ 2 ∧ [1, 0] ∈ binary_range 2 :=
  ⟨(claim_C6_binary_range 2).1,
   (claim_C6_binary_range 2).2.2.2 [1, 0] (by decide) (by decide)⟩

/-- Claim C7: for every positive `n`, `single_bit_set n` yields exactly `n`
vectors of length `n`, and the `i`-th vector (0-indexed) has a 1 at
position `i` and 0 at every other position. -/
theorem claim_C7_single_bit_set (n i : Nat) (hi : i < n) :
    (single_bit_set n).length = n ∧
    ((single_bit_set n).getD i []).length = n ∧
    (∀ j : Nat, ((single_bit_set n).getD i []).getD j 0 = if j = i then 1 else 0) := by
  rw [single_bit_set_getD n i hi]
  refine ⟨single_bit_set_length n, ?_, fun j => one_hot_getD i (n - i - 1) j⟩
  simp only [List.length_append, List.length_replicate, List.length_cons]
  omega

/-- Witness for C7 at `n = 3`, `i = 1`. -/
theorem claim_C7_single_bit_set_witness :
    (single_bit_set 3).length = 3 ∧
    ((single_bit_set 3).getD 1 []).getD 1 0 = 1 ∧
    ((single_bit_set 3).getD 1 []).getD 2 0 = 0 := by
  obtain ⟨h1, -, h3⟩ := claim_C7_single_bit_set 3 1 (by decide)
  exact ⟨h1, by simpa using h3 1, by simpa using h3 2⟩

/-! ## Lemmas on binary parsing and rendering -/

theorem int2_foldl (l : List Nat) (acc : Nat) :
    l.foldl (fun a d => 2 * a + d) acc = acc * 2 ^ l.length + int2 l := by
  induction l generalizing acc with
  | nil => simp [int2]
  | cons x xs ih =>
    have h1 : int2 (x :: xs) = (2 * 0 + x) * 2 ^ xs.length + int2 xs := by
      simp only [int2, List.foldl_cons]
      exact ih (2 * 0 + x)
    rw [List.foldl_cons, ih (2 * acc + x), h1, List.length_cons]
    ring

theorem int2_cons (x : Nat) (xs : List Nat) :
    int2 (x :: xs) = x * 2 ^ xs.length + int2 xs := by
  simp only [int2, List.foldl_cons]
  simpa using int2_foldl xs (2 * 0 + x)

theorem int2_append (l1 l2 : List Nat) :
    int2 (l1 ++ l2) = int2 l1 * 2 ^ l2.length + int2 l2 := by
  simp only [int2, List.foldl_append]
  exact int2_foldl l2 _

theorem int2_lt (l : List Nat) (h : ∀ x ∈ l, x ≤ 1) : int2 l < 2 ^ l.length := by
  induction l with
  | nil => simp [int2]
  | cons x xs ih =>
    have hx : x ≤ 1 := h x (List.mem_cons_self x xs)
    have hxs := ih (fun y hy => h y (List.mem_cons_of_mem x hy))
    have hmul : x * 2 ^ xs.length ≤ 2 ^ xs.length := by
      calc x * 2 ^ xs.length ≤ 1 * 2 ^ xs.length := Nat.mul_le_mul_right _ hx
        _ = 2 ^ xs.length := one_mul _
    rw [int2_cons, List.length_cons, pow_succ]
    omega

theorem int2_replicate_zero (j : Nat) : int2 (List.replicate j 0) = 0 := by
  induction j with
  | zero => rfl
  | succ j ih =>
    rw [List.replicate_succ, int2_cons, ih]
    simp

theorem int2_rjust (n : Nat) (l : List Nat) : int2 (rjust n l) = int2 l := by
  rw [rjust, int2_append, int2_replicate_zero]
  simp

theorem rjust_length (n : Nat) (l : List Nat) (h : l.length ≤ n) :
    (rjust n l).length = n := by
  simp only [rjust, List.length_append, List.length_replicate]
  omega

theorem rjust_mem_le_one (n : Nat) (l : List Nat) (h : ∀ x ∈ l, x ≤ 1) :
    ∀ x ∈ rjust n l, x ≤ 1 := by
  intro x hx
  rcases List.mem_append.mp hx with hx | hx
  · have := List.eq_of_mem_replicate hx
    omega
  · exact h x hx

theorem binDigitsAux_zero (fuel : Nat) : binDigitsAux fuel 0 = [] := by
  cases fuel <;> rfl

theorem binDigitsAux_congr (fuel1 : Nat) :
    ∀ fuel2 n, n ≤ fuel1 → n ≤ fuel2 → binDigitsAux fuel1 n = binDigitsAux fuel2 n := by
  induction fuel1 with
  | zero =>
    intro fuel2 n h1 _
    interval_cases n
    rw [binDigitsAux_zero, binDigitsAux_zero]
  | succ fuel1 ih =>
    intro fuel2 n h1 h2
    match n, fuel2 with
    | 0, fuel2 => rw [binDigitsAux_zero, binDigitsAux_zero]
    | m + 1, fuel2 + 1 =>
      show binDigitsAux fuel1 ((m + 1) / 2) ++ _ = binDigitsAux fuel2 ((m + 1) / 2) ++ _
      rw [ih fuel2 ((m + 1) / 2) (by omega) (by omega)]

theorem binDigits_succ (m : Nat) :
    binDigits (m + 1) = binDigits ((m + 1) / 2) ++ [(m + 1) % 2] := by
  show binDigitsAux (m + 1) (m + 1) = _
  rw [show binDigitsAux (m + 1) (m + 1)
        = binDigitsAux m ((m + 1) / 2) ++ [(m + 1) % 2] from rfl]
  rw [binDigitsAux_congr m ((m + 1) / 2) ((m + 1) / 2) (by omega) (by omega)]
  rfl

theorem binDigits_int2 (n : Nat) : int2 (binDigits n) = n := by
  induction n using Nat.strong_induction_on with
  | _ n ih =>
    match n with
    | 0 => rfl
    | m + 1 =>
      rw [binDigits_succ, int2_append, ih ((m + 1) / 2) (by omega)]
      have h1 : int2 [(m + 1) % 2] = (m + 1) % 2 := by simp [int2]
      rw [h1, List.length_singleton]
      omega

theorem binDigits_le_one (n : Nat) : ∀ x ∈ binDigits n, x ≤ 1 := by
  induction n using Nat.strong_induction_on with
  | _ n ih =>
    match n with
    | 0 => intro x hx; exact absurd hx (List.not_mem_nil x)
    | m + 1 =>
      intro x hx
      rw [binDigits_succ] at hx
      rcases List.mem_append.mp hx with hx | hx
      · exact ih ((m + 1) / 2) (by omega) x hx
      · rw [List.mem_singleton] at hx
        omega

theorem binDigits_length_le (n : Nat) : ∀ k, n < 2 ^ k → (binDigits n).length ≤ k := by
  induction n using Nat.strong_induction_on with
  | _ n ih =>
    intro k hk
    match n, k with
    | 0, k =>
      rw [show binDigits 0 = [] from rfl]
      exact Nat.zero_le k
    | m + 1, 0 => simp at hk
    | m + 1, k + 1 =>
      rw [binDigits_succ, List.length_append, List.length_singleton]
      have hdiv : (m + 1) / 2 < 2 ^ k := by
        rw [pow_succ] at hk
        exact (Nat.div_lt_iff_lt_mul (by omega)).mpr hk
      have := ih ((m + 1) / 2) (by omega) k hdiv
      omega

theorem natToBin_int2 (n : Nat) : int2 (natToBin n) = n := by
  rw [natToBin]
  split
  · subst n; rfl
  · exact binDigits_int2 n

theorem natToBin_le_one (n : Nat) : ∀ x ∈ natToBin n, x ≤ 1 := by
  rw [natToBin]
  split
  · intro x hx
    rw [List.mem_singleton] at hx
    omega
  · exact binDigits_le_one n

theorem natToBin_length_le (n k : Nat) (hk : 1 ≤ k) (h : n < 2 ^ k) :
    (natToBin n).length ≤ k := by
  rw [natToBin]
  split
  · simpa using hk
  · exact binDigits_length_le n k h

/-- The three defining facts of `Binary_Multiply.problem_function` on a
nonempty vector of bits: the result has exactly `len(inputs)` digits, its
value as a binary numeral is the product of the values of the two halves,
and all its digits are bits. -/
theorem BM_problem_function_spec (inputs : List Nat) (hne : inputs ≠ [])
    (hbin : ∀ x ∈ inputs, x ≤ 1) :
    (Binary_Multiply.problem_function inputs).length = inputs.length ∧
    int2 (Binary_Multiply.problem_function inputs) =
      int2 (inputs.take (inputs.length / 2)) * int2 (inputs.drop (inputs.length / 2)) ∧
    ∀ x ∈ Binary_Multiply.problem_function inputs, x ≤ 1 := by
  have hpf : Binary_Multiply.problem_function inputs =
      rjust inputs.length
        (natToBin (int2 (inputs.take (inputs.length / 2))
          * int2 (inputs.drop (inputs.length / 2)))) := rfl
  have hal : (inputs.take (inputs.length / 2)).length = inputs.length / 2 := by
    rw [List.length_take]
    omega
  have hbl : (inputs.drop (inputs.length / 2)).length = inputs.length - inputs.length / 2 := by
    rw [List.length_drop]
  have hbina : ∀ x ∈ inputs.take (inputs.length / 2), x ≤ 1 :=
    fun x hx => hbin x (List.take_subset _ _ hx)
  have hbinb : ∀ x ∈ inputs.drop (inputs.length / 2), x ≤ 1 :=
    fun x hx => hbin x (List.drop_subset _ _ hx)
  have hprod : int2 (inputs.take (inputs.length / 2)) * int2 (inputs.drop (inputs.length / 2))
      < 2 ^ inputs.length := by
    calc int2 (inputs.take (inputs.length / 2)) * int2 (inputs.drop (inputs.length / 2))
        < 2 ^ (inputs.take (inputs.length / 2)).length
            * 2 ^ (inputs.drop (inputs.length / 2)).length :=
          mul_lt_mul'' (int2_lt _ hbina) (int2_lt _ hbinb) (Nat.zero_le _) (Nat.zero_le _)
      _ = 2 ^ ((inputs.take (inputs.length / 2)).length
            + (inputs.drop (inputs.length / 2)).length) := (pow_add 2 _ _).symm
      _ = 2 ^ inputs.length := by rw [hal, hbl]; congr 1; omega
  have hn1 : 1 ≤ inputs.length := List.length_pos.mpr hne
  have hlen : (natToBin (int2 (inputs.take (inputs.length / 2))
      * int2 (inputs.drop (inputs.length / 2)))).length ≤ inputs.length :=
    natToBin_length_le _ _ hn1 hprod
  refine ⟨?_, ?_, ?_⟩
  · rw [hpf]
    exact rjust_length _ _ hlen
  · rw [hpf, int2_rjust, natToBin_int2]
  · rw [hpf]
    exact rjust_mem_le_one _ _ (natToBin_le_one _)

/-- Claim C4: on a nonempty vector of bits of even length, the problem
function splits the vector into two equal halves, and the result is the
length-preserving zero-padded binary encoding of the product of the two
halves read as base-2 integers (most-significant bit first); concretely
`[1,1,1,0] ↦ [0,1,1,0]`. -/
theorem claim_C4_binary_multiply (inputs : List Nat) (hne : inputs ≠ [])
    (heven : inputs.length % 2 = 0) (hbin : ∀ x ∈ inputs, x ≤ 1) :
    (inputs.take (inputs.length / 2)).length = inputs.length / 2 ∧
    (inputs.drop (inputs.length / 2)).length = inputs.length / 2 ∧
    (Binary_Multiply.problem_function inputs).length = inputs.length ∧
    int2 (Binary_Multiply.problem_function inputs) =
      int2 (inputs.take (inputs.length / 2)) * int2 (inputs.drop (inputs.length / 2)) ∧
    (∀ x ∈ Binary_Multiply.problem_function inputs, x ≤ 1) ∧
    Binary_Multiply.problem_function [1, 1, 1, 0] = [0, 1, 1, 0] := by
  obtain ⟨h1, h2, h3⟩ := BM_problem_function_spec inputs hne hbin
  refine ⟨?_, ?_, h1, h2, h3, by decide⟩
  · rw [List.length_take]
    omega
  · rw [List.length_drop]
    omega

/-- Witness for C4 at `inputs = [1, 1, 1, 0]`: `3 * 2 = 6` encodes as
`[0, 1, 1, 0]`. -/
theorem claim_C4_binary_multiply_witness :
    Binary_Multiply.problem_function [1, 1, 1, 0] = [0, 1, 1, 0] :=
  (claim_C4_binary_multiply [1, 1, 1, 0] (by decide) (by decide) (by decide)).2.2.2.2.2

theorem mem_single_bit_set_length (n : Nat) (v : List Nat) (hv : v ∈ single_bit_set n) :
    v.length = n := by
  simp only [single_bit_set, List.mem_map, List.mem_range] at hv
  obtain ⟨i, hi, rfl⟩ := hv
  have hr : (rjust (i + 1) [1]).length = i + 1 := rjust_length _ _ (by simp)
  simp only [ljust, List.length_append, List.length_replicate, hr]
  omega

/-- Claim C5: in the precomputed training tables, every input vector has
length `input_length`, and the output arity is the constant `input_length`
for `Binary_Multiply` and the constant 1 for `Breadth`.  (The tables are
plain values computed once from `n`; `get_fitness` only reads them.) -/
theorem claim_C5_training_invariants (n : Nat) (hn : 1 ≤ n) :
    (∀ c ∈ Binary_Multiply.training n, c.1.length = n ∧ c.2.length = n) ∧
    (∀ c ∈ Breadth.training n, c.1.length = n ∧ c.2.length = 1) := by
  constructor
  · intro c hc
    simp only [Binary_Multiply.training, List.mem_map] at hc
    obtain ⟨v, hv, rfl⟩ := hc
    obtain ⟨hlen, hbin⟩ := (mem_binary_range n v).mp hv
    have hne : v ≠ [] := by
      intro h
      rw [h] at hlen
      simp at hlen
      omega
    have hb1 : ∀ x ∈ v, x ≤ 1 := by
      intro x hx
      rcases hbin x hx with rfl | rfl <;> omega
    obtain ⟨h1, -, -⟩ := BM_problem_function_spec v hne hb1
    exact ⟨hlen, by rw [h1, hlen]⟩
  · intro c hc
    simp only [Breadth.training, List.mem_map] at hc
    obtain ⟨v, hv, rfl⟩ := hc
    exact ⟨mem_single_bit_set_length n v hv, rfl⟩

/-- Witness for C5 at `n = 2` on the training case for input `[0, 1]`. -/
theorem claim_C5_training_invariants_witness :
    ([0, 1], Binary_Multiply.problem_function [0, 1]) ∈ Binary_Multiply.training 2 ∧
    ([0, 1] : List Nat).length = 2 ∧
    (Binary_Multiply.problem_function [0, 1]).length = 2 := by
  have hmem : ([0, 1], Binary_Multiply.problem_function [0, 1])
      ∈ Binary_Multiply.training 2 := by decide
  obtain ⟨h1, h2⟩ := (claim_C5_training_invariants 2 (by decide)).1 _ hmem
  exact ⟨hmem, h1, h2⟩

/-! ## Flat, Depth and configuration handling -/

/-- Claim C2 (code bug): on an individual all of whose genes are the no-op
marker `None`, `Flat.get_fitness` reaches `correct / float(total)` with
`total == 0` and faults with a `ZeroDivisionError` (modelled as `none`)
instead of returning the sentinel 0 the specification requires. -/
theorem claim_C2_flat_all_noop_faults :
    Flat.get_fitness [none, none] = none := rfl

/-- Claim C8: on an individual with at least one non-no-op gene,
`Flat.get_fitness` returns the number of negative genes divided by the
number of non-no-op genes. -/
theorem claim_C8_flat_fitness (genes : List (Option Int))
    (h : ∃ g ∈ genes, g.isSome = true) :
    Flat.get_fitness genes =
      some (((genes.filter isNegGene).length : ℚ)
        / ((genes.filter (fun g => g.isSome)).length : ℚ)) := by
  have htot : (genes.filter (fun g => g.isSome)).length ≠ 0 := by
    obtain ⟨g, hg, hs⟩ := h
    have hmem : g ∈ genes.filter (fun g => g.isSome) := List.mem_filter.mpr ⟨hg, hs⟩
    intro h0
    rw [List.length_eq_zero] at h0
    rw [h0] at hmem
    exact absurd hmem (List.not_mem_nil g)
  simp only [Flat.get_fitness]
  rw [if_neg htot]

/-- Witness for C8 on the genes `[-1, None, 2]`: one negative gene among
two non-no-op genes. -/
theorem claim_C8_flat_fitness_witness :
    (∃ g ∈ ([some (-1), none, some 2] : List (Option Int)), g.isSome = true) ∧
    Flat.get_fitness [some (-1), none, some 2] =
      some ((((List.filter isNegGene [some (-1), none, some 2]).length : ℚ))
        / (((List.filter (fun g => g.isSome) [some (-1), none, some 2]).length : ℚ))) :=
  ⟨⟨some (-1), by decide, rfl⟩,
   claim_C8_flat_fitness [some (-1), none, some 2] ⟨some (-1), by decide, rfl⟩⟩

/-- Claim C9: with a configured `graph_length = L > 0` and an individual
whose evaluation on `[0]` yields a first output `v`, `Depth.get_fitness`
returns exactly `v / L`, and when `v > L` the returned fitness exceeds 1
(no upper clamp). -/
theorem claim_C9_depth_fitness (config : Config) (L : Nat)
    (hL : config.graph_length = some L) (hpos : 0 < L)
    (evaluate : List ℚ → List ℚ) (v : ℚ) (hv : (evaluate [0]).head? = some v) :
    Depth.get_fitness config evaluate = Except.ok (v / (L : ℚ)) ∧
    ((L : ℚ) < v → 1 < v / (L : ℚ)) := by
  constructor
  · simp only [Depth.get_fitness, hv, hL]
    rw [if_neg (by omega)]
  · intro hgt
    have hL0 : (0 : ℚ) < (L : ℚ) := by exact_mod_cast hpos
    exact (one_lt_div hL0).mpr hgt

/-- Witness for C9: `graph_length = 2` and an individual evaluating to 5
gets fitness 5/2 > 1. -/
theorem claim_C9_depth_fitness_witness :
    Depth.get_fitness ⟨none, none, some 2⟩ (fun _ => [5]) = Except.ok ((5 : ℚ) / 2) ∧
    1 < (5 : ℚ) / 2 := by
  obtain ⟨h1, h2⟩ := claim_C9_depth_fitness ⟨none, none, some 2⟩ 2 rfl (by decide)
    (fun _ => [5]) 5 rfl
  exact ⟨h1, h2 (by norm_num)⟩

/-- When every `problem_function` call on the inputs succeeds, the
comprehension runs them all and returns the full table. -/
theorem buildTrainingTrace_all_ok (pf : List Nat → Except Err (List Nat)) :
    ∀ l : List (List Nat), (∀ i ∈ l, (pf i).isOk = true) →
      buildTrainingTrace pf l =
        (l.length, Except.ok (l.map (fun i => (i, (pf i).toOption.getD [])))) := by
  intro l
  induction l with
  | nil =>
    intro _
    rfl
  | cons i rest ih =>
    intro h
    cases hpf : pf i with
    | error e =>
      have hok := h i (List.mem_cons_self i rest)
      rw [hpf] at hok
      exact absurd hok (by simp [Except.isOk, Except.toBool])
    | ok out =>
      rw [buildTrainingTrace, hpf,
        ih (fun j hj => h j (List.mem_cons_of_mem i hj))]
      simp [hpf, Except.toOption]

/-- Counterexample to claim C3 as stated: with `input_length = 2` and
`epsilon` absent, `Bounded_Problem.__init__` evaluates the problem
function on all four training inputs (trace component 4) before the
missing-`epsilon` failure, so the failure does not occur before
training-table work; and with `graph_length` absent, `Depth` and `Active`
construct without error and the missing-key error is raised at
evaluation time by `get_fitness`. -/
theorem claim_C3_counterexample :
    (Bounded_Problem.initWithTrace binary_range Binary_Multiply.problem_functionE
        ⟨some 2, none, none⟩).1 = 4 ∧
    (Bounded_Problem.initWithTrace binary_range Binary_Multiply.problem_functionE
        ⟨some 2, none, none⟩).2 = Except.error Err.keyErrorEpsilon ∧
    Depth.init ⟨none, none, none⟩ = Except.ok ⟨none, none, none⟩ ∧
    Depth.get_fitness ⟨none, none, none⟩ (fun _ => [0]) =
      Except.error Err.keyErrorGraphLength ∧
    Active.init ⟨none, none, none⟩ = Except.ok ⟨none, none, none⟩ ∧
    Active.get_fitness ⟨none, none, none⟩ 0 = Except.error Err.keyErrorGraphLength :=
  ⟨rfl, rfl, rfl, rfl, rfl, rfl⟩

/-- Claim C3 (amended): for a `Bounded_Problem` variant a missing
`epsilon` does fail construction and never evaluation, but the detection
comes only after the training-table comprehension has run — whenever
every `problem_function` call succeeds, all training cases are evaluated
before `config['epsilon']` is read (and a faulting `problem_function`
call would preempt the epsilon lookup altogether); for `Depth` and
`Active` a missing `graph_length` does not fail construction — the
configuration is merely stored — and the missing-key error is raised at
evaluation time by `get_fitness`. -/
theorem claim_C3_amended (dr : Nat → List (List Nat))
    (pf : List Nat → Except Err (List Nat)) (config : Config) (n : Nat)
    (hn : config.input_length = some n) (heps : config.epsilon = none)
    (hgl : config.graph_length = none)
    (hok : ∀ i ∈ dr n, (pf i).isOk = true)
    (evaluate : List ℚ → List ℚ) (v : ℚ) (hv : (evaluate [0]).head? = some v)
    (activeCount : Nat) :
    Bounded_Problem.initWithTrace dr pf config
      = ((dr n).length, Except.error Err.keyErrorEpsilon) ∧
    Depth.init config = Except.ok config ∧
    Depth.get_fitness config evaluate = Except.error Err.keyErrorGraphLength ∧
    Active.init config = Except.ok config ∧
    Active.get_fitness config activeCount = Except.error Err.keyErrorGraphLength := by
  refine ⟨?_, rfl, ?_, rfl, ?_⟩
  · simp only [Bounded_Problem.initWithTrace, hn,
      buildTrainingTrace_all_ok pf (dr n) hok, heps]
  · simp [Depth.get_fitness, hv, hgl]
  · simp [Active.get_fitness, hgl]

/-- Witness for the amended C3 at `input_length = 2` with both `epsilon`
and `graph_length` absent: all four `problem_function` calls succeed. -/
theorem claim_C3_amended_witness :
    Bounded_Problem.initWithTrace binary_range Binary_Multiply.problem_functionE
      ⟨some 2, none, none⟩
      = ((binary_range 2).length, Except.error Err.keyErrorEpsilon) ∧
    Depth.init ⟨some 2, none, none⟩ = Except.ok ⟨some 2, none, none⟩ ∧
    Depth.get_fitness ⟨some 2, none, none⟩ (fun _ => [0]) =
      Except.error Err.keyErrorGraphLength ∧
    Active.init ⟨some 2, none, none⟩ = Except.ok ⟨some 2, none, none⟩ ∧
    Active.get_fitness ⟨some 2, none, none⟩ 3 = Except.error Err.keyErrorGraphLength :=
  claim_C3_amended binary_range Binary_Multiply.problem_functionE
    ⟨some 2, none, none⟩ 2 rfl rfl rfl (by decide) (fun _ => [0]) 0 rfl 3

/-! ## Lemmas on the bounded fitness formula -/

theorem sum_map_nonneg {α : Type} (l : List α) (f : α → ℚ) (h : ∀ x ∈ l, 0 ≤ f x) :
    0 ≤ (l.map f).sum := by
  induction l with
  | nil => simp
  | cons x xs ih =>
    simp only [List.map_cons, List.sum_cons]
    have hx := h x (List.mem_cons_self x xs)
    have hxs := ih (fun y hy => h y (List.mem_cons_of_mem x hy))
    linarith

theorem sum_map_le_length {α : Type} (l : List α) (f : α → ℚ) (h : ∀ x ∈ l, f x ≤ 1) :
    (l.map f).sum ≤ (l.length : ℚ) := by
  induction l with
  | nil => simp
  | cons x xs ih =>
    simp only [List.map_cons, List.sum_cons, List.length_cons]
    have hx := h x (List.mem_cons_self x xs)
    have hxs := ih (fun y hy => h y (List.mem_cons_of_mem x hy))
    push_cast
    linarith

theorem sum_map_eq_zero_iff {α : Type} (l : List α) (f : α → ℚ) (h : ∀ x ∈ l, 0 ≤ f x) :
    (l.map f).sum = 0 ↔ ∀ x ∈ l, f x = 0 := by
  induction l with
  | nil => simp
  | cons x xs ih =>
    simp only [List.map_cons, List.sum_cons, List.mem_cons]
    have hx := h x (List.mem_cons_self x xs)
    have hxs : ∀ y ∈ xs, 0 ≤ f y := fun y hy => h y (List.mem_cons_of_mem x hy)
    have hsum := sum_map_nonneg xs f hxs
    constructor
    · intro h0
      have hfx : f x = 0 := by linarith
      have hrest : (xs.map f).sum = 0 := by linarith
      intro y hy
      rcases hy with rfl | hy
      · exact hfx
      · exact (ih hxs).mp hrest y hy
    · intro hall
      rw [hall x (Or.inl rfl), (ih hxs).mpr (fun y hy => hall y (Or.inr hy)), add_zero]

theorem missCount_le (eps : ℚ) (ans out : List ℚ) :
    missCount eps ans out ≤ out.length := by
  calc missCount eps ans out ≤ (ans.zip out).length := List.length_filter_le _ _
    _ ≤ out.length := by rw [List.length_zip]; omega

theorem missCount_eq_zero_iff (eps : ℚ) (ans out : List ℚ) :
    missCount eps ans out = 0 ↔ ∀ pr ∈ ans.zip out, |pr.1 - pr.2| ≤ eps := by
  rw [missCount, List.length_eq_zero, List.filter_eq_nil_iff]
  constructor
  · intro h pr hpr
    have := h pr hpr
    rw [decide_eq_true_eq] at this
    exact not_lt.mp this
  · intro h pr hpr
    rw [decide_eq_true_eq]
    exact not_lt.mpr (h pr hpr)

theorem caseError_nonneg (eps : ℚ) (ans out : List ℚ) : 0 ≤ caseError eps ans out :=
  div_nonneg (Nat.cast_nonneg _) (Nat.cast_nonneg _)

theorem caseError_le_one (eps : ℚ) (ans out : List ℚ) (h : out ≠ []) :
    caseError eps ans out ≤ 1 := by
  have hlen : (0 : ℚ) < (out.length : ℚ) := by
    exact_mod_cast List.length_pos.mpr h
  rw [caseError, div_le_one hlen]
  exact_mod_cast missCount_le eps ans out

theorem caseError_eq_zero_iff (eps : ℚ) (ans out : List ℚ) (h : out ≠ []) :
    caseError eps ans out = 0 ↔ ∀ pr ∈ ans.zip out, |pr.1 - pr.2| ≤ eps := by
  have hne : out.length ≠ 0 := by
    have := List.length_pos.mpr h
    omega
  rw [caseError, div_eq_zero_iff, or_iff_left (Nat.cast_ne_zero.mpr hne),
    Nat.cast_eq_zero]
  exact missCount_eq_zero_iff eps ans out

theorem zip_take_length {α β : Type} (l1 : List α) :
    ∀ l2 : List β, l1.zip l2 = l1.zip (l2.take l1.length) := by
  induction l1 with
  | nil => intro l2; rfl
  | cons x xs ih =>
    intro l2
    match l2 with
    | [] => rfl
    | y :: ys =>
      simp only [List.zip_cons_cons, List.length_cons, List.take_succ_cons]
      rw [← ih ys]

/-- Claim C1: when every training case has a nonempty expected-output
vector and the individual answers with the expected arity on each case,
`get_fitness` equals `1 - (Σ per-case miss fraction) / (number of cases)`,
lies in `[0, 1]`, and equals 1 exactly when every compared output of every
case is within `epsilon` of the expected value. -/
theorem claim_C1_bounded_fitness (p : Bounded_Problem) (evaluate : List ℚ → List ℚ)
    (hout : ∀ c ∈ p.training, c.2 ≠ [])
    (_harity : ∀ c ∈ p.training, (evaluate c.1).length = c.2.length) :
    p.get_fitness evaluate =
      1 - ((p.training.map (fun c =>
        (missCount p.epsilon (evaluate c.1) c.2 : ℚ) / (c.2.length : ℚ))).sum)
          / (p.training.length : ℚ) ∧
    0 ≤ p.get_fitness evaluate ∧ p.get_fitness evaluate ≤ 1 ∧
    (p.get_fitness evaluate = 1 ↔
      ∀ c ∈ p.training, ∀ pr ∈ (evaluate c.1).zip c.2, |pr.1 - pr.2| ≤ p.epsilon) := by
  have hterm0 : ∀ c ∈ p.training, 0 ≤ caseError p.epsilon (evaluate c.1) c.2 :=
    fun c _ => caseError_nonneg _ _ _
  have hterm1 : ∀ c ∈ p.training, caseError p.epsilon (evaluate c.1) c.2 ≤ 1 :=
    fun c hc => caseError_le_one _ _ _ (hout c hc)
  have hS0 : 0 ≤ (p.training.map
      (fun c => caseError p.epsilon (evaluate c.1) c.2)).sum :=
    sum_map_nonneg _ _ hterm0
  have hSle : (p.training.map
      (fun c => caseError p.epsilon (evaluate c.1) c.2)).sum ≤ (p.training.length : ℚ) :=
    sum_map_le_length _ _ hterm1
  have hfit : p.get_fitness evaluate =
      1 - ((p.training.map (fun c => caseError p.epsilon (evaluate c.1) c.2)).sum)
        / (p.training.length : ℚ) := rfl
  have hdivnn : (0 : ℚ) ≤ ((p.training.map
      (fun c => caseError p.epsilon (evaluate c.1) c.2)).sum) / (p.training.length : ℚ) :=
    div_nonneg hS0 (Nat.cast_nonneg _)
  refine ⟨rfl, ?_, ?_, ?_⟩
  · rcases Nat.eq_zero_or_pos p.training.length with hN | hN
    · rw [hfit, List.length_eq_zero.mp hN]
      norm_num
    · have hNQ : (0 : ℚ) < (p.training.length : ℚ) := by exact_mod_cast hN
      rw [hfit]
      have := (div_le_one hNQ).mpr hSle
      linarith
  · rw [hfit]
    linarith
  · rw [hfit, sub_eq_self]
    rcases Nat.eq_zero_or_pos p.training.length with hN | hN
    · have htr : p.training = [] := List.length_eq_zero.mp hN
      rw [htr]
      simp
    · have hNQ : ((p.training.length : ℚ)) ≠ 0 := by
        have : (0 : ℚ) < (p.training.length : ℚ) := by exact_mod_cast hN
        linarith
      rw [div_eq_zero_iff, or_iff_left hNQ, sum_map_eq_zero_iff _ _ hterm0]
      constructor
      · intro h c hc
        exact (caseError_eq_zero_iff _ _ _ (hout c hc)).mp (h c hc)
      · intro h c hc
        exact (caseError_eq_zero_iff _ _ _ (hout c hc)).mpr (h c hc)

/-- Witness for C1 on a one-case problem solved exactly: fitness 1 ≥ 0. -/
theorem claim_C1_bounded_fitness_witness :
    (Bounded_Problem.mk [([0], [0])] 0).get_fitness (fun _ => [0]) = 1 ∧
    0 ≤ (Bounded_Problem.mk [([0], [0])] 0).get_fitness (fun _ => [0]) := by
  obtain ⟨-, h2, -, h4⟩ := claim_C1_bounded_fitness ⟨[([0], [0])], 0⟩ (fun _ => [0])
    (by decide) (by decide)
  exact ⟨h4.mpr (by simp), h2⟩

/-- Claim C10: `zip` truncation means answer positions beyond the answer
length are never compared (while the divisor stays the expected arity),
and an individual answering the empty sequence on every case gets
fitness exactly 1. -/
theorem claim_C10_short_answers (eps : ℚ) (ans out : List ℚ) (p : Bounded_Problem)
    (_hne : p.training ≠ []) (_hout : ∀ c ∈ p.training, c.2 ≠ []) :
    missCount eps ans out = missCount eps ans (out.take ans.length) ∧
    caseError eps ans out = (missCount eps ans out : ℚ) / (out.length : ℚ) ∧
    p.get_fitness (fun _ => []) = 1 := by
  refine ⟨?_, rfl, ?_⟩
  · rw [missCount, missCount, ← zip_take_length]
  · have hsum : (p.training.map (fun c => caseError p.epsilon [] c.2)).sum = 0 := by
      apply List.sum_eq_zero
      intro x hx
      rw [List.mem_map] at hx
      obtain ⟨c, hc, rfl⟩ := hx
      rw [caseError, show missCount p.epsilon [] c.2 = 0 from rfl]
      simp
    show (1 : ℚ)
        - ((p.training.map (fun c => caseError p.epsilon [] c.2)).sum)
          / (p.training.length : ℚ) = 1
    rw [hsum, zero_div, sub_zero]

/-- Witness for C10: an individual answering `[]` on a one-case problem
with expected output `[1]` receives fitness 1. -/
theorem claim_C10_short_answers_witness :
    (Bounded_Problem.mk [([0], [1])] 0).get_fitness (fun _ => []) = 1 :=
  (claim_C10_short_answers 0 [1] [2, 3] ⟨[([0], [1])], 0⟩ (by decide) (by decide)).2.2

end LengthBiasCGP
